import Mathlib

/-!
Verification development for the email research assistant repository
(`email_script.py`, `reddit_utils.py`).

The pure data-flow of the two Python modules is embedded shallowly:
HTTP calls, the LLM and the filesystem are treated as oracles passed in
as explicit parameters, and every list-processing step (id assignment,
relevance truncation, score sorting, permalink filtering, the HTML to
markdown conversion and the blank-line collapsing regular expression)
is translated function by function from the source.
-/

/-! ## Search client (`email_script.py`, `search_serper`) -/

/-- One entry of the `organic` array of the upstream search response. -/
structure OrganicResult where
  title : String
  link : String
  snippet : String
deriving DecidableEq

/-- The dict built by `search_serper` for each organic result.
`category` is absent at creation time (`none`) and attached by `main`. -/
structure SearchResult where
  title : String
  link : String
  snippet : String
  search_term : String
  id : Nat
  category : Option String
deriving DecidableEq

/-- The list comprehension of `search_serper`:
`enumerate(results_list, 1)` pairs each organic result with the ids 1, 2, 3, ... -/
def assignIds (q : String) : Nat → List OrganicResult → List SearchResult
  | _, [] => []
  | idx, r :: rs => ⟨r.title, r.link, r.snippet, q, idx, none⟩ :: assignIds q (idx + 1) rs

/-- `search_serper`: `none` models a response without the `organic`
key (the function returns the empty list); `some l` models the parsed
`organic` array. -/
def search_serper (q : String) (organic : Option (List OrganicResult)) : List SearchResult :=
  match organic with
  | none => []
  | some results_list => assignIds q 1 results_list

/-! ## Relevance filter (`check_search_relevance` and the re-resolution in `main`) -/

/-- Pydantic model `ResultRelevance`: the id is a string. -/
structure ResultRelevance where
  explanation : String
  id : String
deriving DecidableEq

/-- Pydantic model `RelevanceCheckOutput`. -/
structure RelevanceCheckOutput where
  relevant_results : List ResultRelevance
deriving DecidableEq

/-- `check_search_relevance` after the LLM call: the model output
(`llmResult`, an oracle parameter) is truncated with
`result.relevant_results = result.relevant_results[:max_results]`. -/
def check_search_relevance (llmResult : RelevanceCheckOutput) (max_results : Nat) :
    RelevanceCheckOutput :=
  ⟨llmResult.relevant_results.take max_results⟩

/-- The caller side in `main`:
`[r for r in results if str(r['id']) in relevant_ids]` —
each integer id is converted to a string and matched against the
string ids returned by the filter. -/
def resolveRelevantResults (results : List SearchResult) (relevant_ids : List String) :
    List SearchResult :=
  results.filter (fun r => relevant_ids.contains (toString r.id))

/-! ## Reddit data model (`reddit_utils.py`) -/

/-- The `data` object of one child of the search listing.  A missing
`permalink` key is modelled by the empty string, exactly the default
used by `post_data.get("permalink", "")`. -/
structure RawChild where
  title : String
  permalink : String
  score : Int
  num_comments : Int
  subreddit : String
  selftext : String
deriving DecidableEq

/-- The post dict built by `search_reddit_via_scrapingfish`. -/
structure RedditPost where
  title : String
  url : String
  score : Int
  num_comments : Int
  subreddit : String
  selftext : String
deriving DecidableEq

/-- One raw child of the comment listing (`data[1]["data"]["children"]`). -/
structure RawCommentChild where
  kind : String
  author : String
  score : Int
  body : String
deriving DecidableEq

/-- The comment dict built by `fetch_post_comments_via_scrapingfish`. -/
structure RedditComment where
  author : String
  score : Int
  body : String
deriving DecidableEq

/-- Python string slicing `s[:n]`: the first `n` code points. -/
def takeChars (s : String) (n : Nat) : String := String.mk (s.toList.take n)

/-- Python `list.sort(key=lambda x: x["score"], reverse=True)` and
`sorted(..., key=..., reverse=True)`: a stable sort, descending by
score.  Insertion sort with the relation `score b ≤ score a` computes
the same stable descending permutation. -/
def sortByScoreDesc {α : Type} (score : α → Int) (l : List α) : List α :=
  List.insertionSort (fun a b => score b ≤ score a) l

/-- The post record appended for a child whose permalink is non-empty. -/
def mkPostRecord (c : RawChild) : RedditPost :=
  ⟨c.title, "https://www.reddit.com" ++ c.permalink, c.score, c.num_comments,
    c.subreddit, takeChars c.selftext 500⟩

/-- The body of the `for child in ...` loop of
`search_reddit_via_scrapingfish`: the guard `if permalink:` skips
children whose permalink is empty. -/
def mkPost (c : RawChild) : Option RedditPost :=
  if c.permalink ≠ "" then some (mkPostRecord c) else none

/-- `search_reddit_via_scrapingfish` after the HTTP call.  `none`
models the exception path (the function returns the empty list);
`some children` models `data["data"]["children"]`.  The kept posts are
sorted descending by score and truncated to `num_results`. -/
def search_reddit_via_scrapingfish (fetched : Option (List RawChild)) (num_results : Nat) :
    List RedditPost :=
  match fetched with
  | none => []
  | some children =>
      (sortByScoreDesc (fun p => p.score) (children.filterMap mkPost)).take num_results

/-- The comment-processing tail of `fetch_post_comments_via_scrapingfish`:
keep children of kind `"t1"`, truncate bodies to 500 characters, sort
descending by score, truncate to `num_comments`. -/
def processComments (raw : List RawCommentChild) (num_comments : Nat) : List RedditComment :=
  (sortByScoreDesc (fun c => c.score)
    (raw.filterMap (fun c =>
      if c.kind = "t1" then some ⟨c.author, c.score, takeChars c.body 500⟩ else none))).take
    num_comments

/-- The single HTTP exchange made by `fetch_post_comments_via_scrapingfish`:
its status code, and the parsed JSON body (`none` models a body that is
not a JSON array of listings, which makes `response.json()` or the
subsequent indexing raise). -/
structure HttpResponse where
  status : Nat
  json : Option (List (List RawCommentChild))
deriving DecidableEq

/-- Observable trace of one call of `fetch_post_comments_via_scrapingfish`:
the returned comment list, how many HTTP requests the call performed,
and the durations (in seconds) of the sleeps it performed. -/
structure FetchTrace where
  comments : List RedditComment
  requestsMade : Nat
  sleepsSeconds : List Nat
deriving DecidableEq

/-- `fetch_post_comments_via_scrapingfish`: exactly one `requests.get`
is issued; `raise_for_status()` raises on any status of 400 or above
and the `except` branch returns the empty list.  The function contains
no retry loop and no `time.sleep`, so every path reports one request
and no sleeps. -/
def fetch_post_comments_via_scrapingfish (resp : HttpResponse) (num_comments : Nat) :
    FetchTrace :=
  if 400 ≤ resp.status then ⟨[], 1, []⟩
  else
    match resp.json with
    | none => ⟨[], 1, []⟩
    | some data =>
        if data.length < 2 then ⟨[], 1, []⟩
        else ⟨processComments (data.getD 1 []) num_comments, 1, []⟩

/-- The per-keyword result dict built by `get_top_posts_with_comments`. -/
structure RedditResult where
  keyword : String
  subreddit_filter : Option String
  post : RedditPost
  comments : List RedditComment
deriving DecidableEq

/-- `get_top_posts_with_comments` given the posts returned by the
search step and an oracle for the per-post comment fetch
(`Except.error` models an exception inside the loop body, whose
handler appends the same record with an empty comment list). -/
def get_top_posts_with_comments (keyword : String) (subreddit : Option String)
    (posts : List RedditPost) (commentsOf : RedditPost → Except Unit (List RedditComment)) :
    List RedditResult :=
  if posts = [] then []
  else
    posts.map (fun post =>
      match commentsOf post with
      | Except.ok comments => ⟨keyword, subreddit, post, comments⟩
      | Except.error _ => ⟨keyword, subreddit, post, []⟩)

/-! ## Markdown normalizer (`convert_html_to_markdown`)

The BeautifulSoup document is modelled as a tree of nodes (the library
parse step is the boundary of the embedding); the five rewrite passes,
`get_text()`, the regular expression `re.sub(r'\n\s*\n', '\n\n', text)`
and `str.strip()` are translated directly. -/

mutual
/-- A node of the parsed HTML tree: a text node, or an element with a
tag name, attributes and children. -/
inductive HtmlNode where
  | text : List Char → HtmlNode
  | elem : String → List (String × String) → NodeList → HtmlNode

/-- A sibling list of HTML nodes. -/
inductive NodeList where
  | nil : NodeList
  | cons : HtmlNode → NodeList → NodeList
end

mutual
/-- `get_text()` of one node: the concatenation of all text beneath it. -/
def getText : HtmlNode → List Char
  | .text t => t
  | .elem _ _ kids => getTextList kids

/-- `get_text()` of a sibling list. -/
def getTextList : NodeList → List Char
  | .nil => []
  | .cons n ns => getText n ++ getTextList ns
end

/-- `int(h.name[1])` for the six heading tags. -/
def headingLevel : String → Option Nat
  | "h1" => some 1
  | "h2" => some 2
  | "h3" => some 3
  | "h4" => some 4
  | "h5" => some 5
  | "h6" => some 6
  | _ => none

mutual
/-- Pass 1: each heading is replaced by `'#' * level + ' ' + text + '\n\n'`. -/
def headingPass : HtmlNode → HtmlNode
  | .text t => .text t
  | .elem name attrs kids =>
      match headingLevel name with
      | some lvl => .text (List.replicate lvl '#' ++ ' ' :: getTextList kids ++ ['\n', '\n'])
      | none => .elem name attrs (headingPassList kids)

def headingPassList : NodeList → NodeList
  | .nil => .nil
  | .cons n ns => .cons (headingPass n) (headingPassList ns)
end

mutual
/-- Pass 2: anchors with both a non-empty `href` attribute and
non-empty text become `[text](href)`; all other anchors are left in
place (their text is recovered by `get_text()` later). -/
def aPass : HtmlNode → HtmlNode
  | .text t => .text t
  | .elem name attrs kids =>
      if name = "a" ∧ ((attrs.lookup "href").getD "" ≠ "" ∧ getTextList kids ≠ []) then
        .text ('[' :: getTextList kids ++ ']' :: '(' :: ((attrs.lookup "href").getD "").toList
          ++ [')'])
      else .elem name attrs (aPassList kids)

def aPassList : NodeList → NodeList
  | .nil => .nil
  | .cons n ns => .cons (aPass n) (aPassList ns)
end

mutual
/-- Pass 3 (run once for `["b", "strong"]` with `**` and once for
`["i", "em"]` with `*`): matching elements become marker-wrapped text. -/
def emphPass (names : List String) (marker : List Char) : HtmlNode → HtmlNode
  | .text t => .text t
  | .elem name attrs kids =>
      if name ∈ names then .text (marker ++ getTextList kids ++ marker)
      else .elem name attrs (emphPassList names marker kids)

def emphPassList (names : List String) (marker : List Char) : NodeList → NodeList
  | .nil => .nil
  | .cons n ns => .cons (emphPass names marker n) (emphPassList names marker ns)
end

mutual
/-- The inner loop of pass 4: every `li` beneath a `ul` becomes
`'- ' + text + '\n'`. -/
def liRepl : HtmlNode → HtmlNode
  | .text t => .text t
  | .elem name attrs kids =>
      if name = "li" then .text ('-' :: ' ' :: getTextList kids ++ ['\n'])
      else .elem name attrs (liReplList kids)

def liReplList : NodeList → NodeList
  | .nil => .nil
  | .cons n ns => .cons (liRepl n) (liReplList ns)
end

mutual
/-- Pass 4: `for ul in soup.find_all('ul'): for li in ul.find_all('li')`. -/
def ulPass : HtmlNode → HtmlNode
  | .text t => .text t
  | .elem name attrs kids =>
      if name = "ul" then .elem name attrs (liReplList kids)
      else .elem name attrs (ulPassList kids)

def ulPassList : NodeList → NodeList
  | .nil => .nil
  | .cons n ns => .cons (ulPass n) (ulPassList ns)
end

mutual
/-- The inner loop of pass 5: `li` items beneath an `ol` become
`'N. ' + text + '\n'` with `N` counting from 1 in document order. -/
def olReplNode : Nat → HtmlNode → HtmlNode × Nat
  | i, .text t => (.text t, i)
  | i, .elem name attrs kids =>
      if name = "li" then
        (.text ((Nat.repr i).toList ++ '.' :: ' ' :: getTextList kids ++ ['\n']), i + 1)
      else
        let p := olReplList i kids
        (.elem name attrs p.1, p.2)

def olReplList : Nat → NodeList → NodeList × Nat
  | i, .nil => (.nil, i)
  | i, .cons n ns =>
      let p := olReplNode i n
      let q := olReplList p.2 ns
      (.cons p.1 q.1, q.2)
end

mutual
/-- Pass 5: `for ol in soup.find_all('ol')`, numbering its `li` items. -/
def olPass : HtmlNode → HtmlNode
  | .text t => .text t
  | .elem name attrs kids =>
      if name = "ol" then .elem name attrs (olReplList 1 kids).1
      else .elem name attrs (olPassList kids)

def olPassList : NodeList → NodeList
  | .nil => .nil
  | .cons n ns => .cons (olPass n) (olPassList ns)
end

/-- The whitespace class of the regular expression `\s` and of
`str.strip()` restricted to ASCII (the only characters the pipeline
produces as separators). -/
def pyWs (c : Char) : Bool :=
  c = ' ' || c = '\t' || c = '\n' || c = '\r' || c = '\x0b' || c = '\x0c'

/-- Greedy tail of a match of `\n\s*\n` starting at a newline that has
just been consumed: if the maximal whitespace run that follows
contains a newline, return the suffix after the last such newline,
else `none`.  This mirrors how the greedy `\s*` of
`re.sub(r'\n\s*\n', ...)` extends a match to the last newline of the
run. -/
def matchTail : List Char → Option (List Char)
  | [] => none
  | c :: cs =>
      if c = '\n' then
        match matchTail cs with
        | some r => some r
        | none => some cs
      else if pyWs c then matchTail cs
      else none

/-- Fuelled worker for the regular-expression substitution
`re.sub(r'\n\s*\n', '\n\n', text)`: scan left to right; at a newline
whose following whitespace run contains another newline, emit exactly
two newlines and resume after the last newline of the run.  The fuel
only serves termination; `collapse` supplies enough. -/
def collapseF : Nat → List Char → List Char
  | 0, l => l
  | _ + 1, [] => []
  | f + 1, c :: cs =>
      if c = '\n' then
        match matchTail cs with
        | some r => '\n' :: '\n' :: collapseF f r
        | none => '\n' :: collapseF f cs
      else c :: collapseF f cs

/-- `re.sub(r'\n\s*\n', '\n\n', text)`. -/
def collapse (l : List Char) : List Char := collapseF l.length l

/-- Removal of trailing whitespace (the right half of `str.strip()`). -/
def dropTrailingWs : List Char → List Char
  | [] => []
  | c :: cs =>
      let r := dropTrailingWs cs
      if r = [] then (if pyWs c then [] else [c]) else c :: r

/-- `str.strip()`. -/
def pyStrip (l : List Char) : List Char := dropTrailingWs (l.dropWhile pyWs)

/-- All five passes in source order. -/
def applyPasses (doc : NodeList) : NodeList :=
  olPassList (ulPassList (emphPassList ["i", "em"] ['*']
    (emphPassList ["b", "strong"] ['*', '*'] (aPassList (headingPassList doc)))))

/-- `convert_html_to_markdown` on a parsed document: the five passes,
then `soup.get_text()`, then the blank-line collapse, then `strip()`. -/
def convert_html_to_markdown (doc : NodeList) : List Char :=
  pyStrip (collapse (getTextList (applyPasses doc)))

/-- The normalizer applied to a plain-text document: a string with no
tag or entity markup parses to a single text node. -/
def normalizeText (t : List Char) : List Char :=
  convert_html_to_markdown (.cons (.text t) .nil)

/-- The parse tree of `<h2>Title</h2><ul><li>A</li><li>B</li></ul>`. -/
def exampleDoc : NodeList :=
  .cons (.elem "h2" [] (.cons (.text "Title".toList) .nil))
    (.cons (.elem "ul" []
      (.cons (.elem "li" [] (.cons (.text ['A']) .nil))
        (.cons (.elem "li" [] (.cons (.text ['B']) .nil)) .nil))) .nil)

/-! ## Scrape stage (`scrape_and_save_markdown`) -/

/-- Outcome of the proxy request for one item: a response with a
status code and parsed body, or an exception anywhere inside the `try`
block. -/
inductive FetchOutcome where
  | response : Nat → NodeList → FetchOutcome
  | failure : FetchOutcome

/-- The dict appended for one successfully scraped item. -/
structure ScrapedPage where
  url : String
  filepath : String
  markdown : List Char
  title : String
  id : Nat
  category : String
deriving DecidableEq

/-- The page record built on the success path (file writing is a
side effect outside the embedding). -/
def mkScrapedPage (r : SearchResult) (doc : NodeList) : ScrapedPage :=
  ⟨r.link, "scraped_markdown/" ++ Nat.repr r.id ++ ".md", convert_html_to_markdown doc,
    r.title, r.id, r.category.getD "General"⟩

/-- What one input item contributes to the output: a page exactly when
the proxy returned status 200 and nothing raised. -/
def pageOf (fetch : SearchResult → FetchOutcome) (r : SearchResult) : Option ScrapedPage :=
  match fetch r with
  | .response s doc => if s = 200 then some (mkScrapedPage r doc) else none
  | .failure => none

/-- `scrape_and_save_markdown`: the accumulating loop.  A non-200
status hits `continue`, an exception hits the `except` branch; both
leave the accumulator unchanged and move on to the next item. -/
def scrape_and_save_markdown (fetch : SearchResult → FetchOutcome)
    (relevant_results : List SearchResult) : List ScrapedPage :=
  relevant_results.foldl (fun acc r =>
    match fetch r with
    | .response s doc => if s = 200 then acc ++ [mkScrapedPage r doc] else acc
    | .failure => acc) []

/-! ## Sample values used by witnesses -/

/-- A sample search result with a chosen id. -/
def sampleResult (n : Nat) : SearchResult :=
  ⟨"t", "https://a.test", "s", "q", n, none⟩

/-- A sample Reddit search child with a non-empty permalink. -/
def sampleChild : RawChild := ⟨"Post", "/r/x/comments/1/t/", 5, 2, "x", "body"⟩

/-- A sample post with score 42. -/
def samplePost : RedditPost := ⟨"Post", "https://www.reddit.com/r/x/1", 42, 3, "x", "text"⟩

/-- A fetch oracle whose proxy always answers with HTTP 500. -/
def fetch500 : SearchResult → FetchOutcome := fun _ => .response 500 .nil

/-! ## Shared lemmas -/

theorem sortByScoreDesc_sorted {α : Type} (score : α → Int) (l : List α) :
    List.Sorted (fun a b => score b ≤ score a) (sortByScoreDesc score l) := by
  haveI : IsTotal α (fun a b => score b ≤ score a) := ⟨fun a b => le_total (score b) (score a)⟩
  haveI : IsTrans α (fun a b => score b ≤ score a) :=
    ⟨fun _ _ _ h1 h2 => le_trans h2 h1⟩
  exact List.sorted_insertionSort _ l

theorem sorted_take {α : Type} {r : α → α → Prop} {l : List α} (h : List.Sorted r l) (n : Nat) :
    List.Sorted r (l.take n) := h.sublist (List.take_sublist n l)

theorem assignIds_get_id (q : String) : ∀ (k : Nat) (l : List OrganicResult) (i : Nat)
    (h : i < (assignIds q k l).length), ((assignIds q k l).get ⟨i, h⟩).id = k + i := by
  intro k l
  induction l generalizing k with
  | nil => intro i h; simp [assignIds] at h
  | cons r rs ih =>
      intro i h
      cases i with
      | zero => simp [assignIds]
      | succ j =>
          have h2 : j < (assignIds q (k + 1) rs).length := by
            simpa [assignIds] using h
          have hstep : ((assignIds q k (r :: rs)).get ⟨j + 1, h⟩).id
              = ((assignIds q (k + 1) rs).get ⟨j, h2⟩).id := by
            simp [assignIds]
          rw [hstep, ih (k + 1) j h2]
          omega

theorem assignIds_map_id (q : String) : ∀ (k : Nat) (l : List OrganicResult),
    (assignIds q k l).map (fun r => r.id) = List.range' k l.length := by
  intro k l
  induction l generalizing k with
  | nil => simp [assignIds]
  | cons r rs ih => simp [assignIds, List.range'_succ, ih]

/-! ## Claims -/

/-- Claim C1: the caller carries forward exactly those SearchResults
whose id, converted to a string, equals one of the string ids returned
by the relevance filter; in particular a filter output of
`["2", "3"]` over results with integer ids 1, 2, 3 selects exactly the
results with id 2 and id 3. -/
theorem claim_C1 :
    (∀ (results : List SearchResult) (relevant_ids : List String) (r : SearchResult),
        r ∈ resolveRelevantResults results relevant_ids
          ↔ (r ∈ results ∧ toString r.id ∈ relevant_ids))
  ∧ (∀ r1 r2 r3 : SearchResult, r1.id = 1 → r2.id = 2 → r3.id = 3 →
        resolveRelevantResults [r1, r2, r3] ["2", "3"] = [r2, r3]) := by
  constructor
  · intro results relevant_ids r
    simp [resolveRelevantResults, List.mem_filter, List.elem_iff]
  · intro r1 r2 r3 h1 h2 h3
    simp [resolveRelevantResults, List.filter_cons, h1, h2, h3,
      show toString (1 : Nat) = "1" from rfl, show toString (2 : Nat) = "2" from rfl,
      show toString (3 : Nat) = "3" from rfl]

/-- Witness for C1 at concrete results with ids 1, 2, 3. -/
theorem claim_C1_witness :
    resolveRelevantResults [sampleResult 1, sampleResult 2, sampleResult 3] ["2", "3"]
      = [sampleResult 2, sampleResult 3] :=
  claim_C1.2 (sampleResult 1) (sampleResult 2) (sampleResult 3) rfl rfl rfl

/-- Claim C2: whatever list the LLM returned, the relevance filter
output is truncated to at most `max_results` entries after the call. -/
theorem claim_C2 : ∀ (llmResult : RelevanceCheckOutput) (max_results : Nat),
    (check_search_relevance llmResult max_results).relevant_results.length ≤ max_results := by
  intro llm m
  exact List.length_take_le m llm.relevant_results

/-- Claim C3: the search client assigns ids 1..N sequentially in
upstream order, so the i-th result (0-based i) has id i + 1 and the
ids are unique within the call. -/
theorem claim_C3 (q : String) (l : List OrganicResult) :
    (search_serper q (some l)).length = l.length
  ∧ (∀ i (h : i < (search_serper q (some l)).length),
      ((search_serper q (some l)).get ⟨i, h⟩).id = i + 1)
  ∧ ((search_serper q (some l)).map (fun r => r.id)).Nodup := by
  have hmap := assignIds_map_id q 1 l
  refine ⟨?_, ?_, ?_⟩
  · have := congrArg List.length hmap
    simpa [search_serper] using this
  · intro i h
    have h2 : i < (assignIds q 1 l).length := by simpa [search_serper] using h
    have hid : ((assignIds q 1 l).get ⟨i, h2⟩).id = 1 + i := assignIds_get_id q 1 l i h2
    have hgoal : ((search_serper q (some l)).get ⟨i, h⟩).id = 1 + i := hid
    omega
  · have hnd : (List.range' 1 l.length).Nodup := by simp [List.nodup_range']
    have : ((assignIds q 1 l).map (fun r => r.id)).Nodup := by rw [hmap]; exact hnd
    simpa [search_serper] using this

/-- Witness for C3 at a one-element organic listing. -/
theorem claim_C3_witness :
    ((search_serper "Agentic AI" (some [⟨"T", "L", "S"⟩])).get ⟨0, by decide⟩).id = 0 + 1 :=
  (claim_C3 "Agentic AI" [⟨"T", "L", "S"⟩]).2.1 0 (by decide)

/-- Behaviour of the comment fetch on every path: the returned list is
sorted descending by score and bounded by `num_comments`. -/
theorem fetch_comments_spec (resp : HttpResponse) (m : Nat) :
    List.Sorted (fun a b => RedditComment.score b ≤ RedditComment.score a)
      (fetch_post_comments_via_scrapingfish resp m).comments
  ∧ (fetch_post_comments_via_scrapingfish resp m).comments.length ≤ m := by
  unfold fetch_post_comments_via_scrapingfish
  split
  · simp [List.Sorted]
  · cases resp.json with
    | none => simp [List.Sorted]
    | some data =>
        simp only
        split
        · simp [List.Sorted]
        · exact ⟨sorted_take (sortByScoreDesc_sorted _ _) m,
            List.length_take_le m _⟩

/-- Claim C4: posts returned by the Reddit search and comments
returned by the comment fetch are locally re-sorted descending by
score whatever the upstream order, and the comment list is bounded by
the requested `num_comments`. -/
theorem claim_C4 (children : List RawChild) (n : Nat) (resp : HttpResponse) (m : Nat) :
    List.Sorted (fun a b => RedditPost.score b ≤ RedditPost.score a)
      (search_reddit_via_scrapingfish (some children) n)
  ∧ List.Sorted (fun a b => RedditComment.score b ≤ RedditComment.score a)
      (fetch_post_comments_via_scrapingfish resp m).comments
  ∧ (fetch_post_comments_via_scrapingfish resp m).comments.length ≤ m := by
  refine ⟨?_, (fetch_comments_spec resp m).1, (fetch_comments_spec resp m).2⟩
  exact sorted_take (sortByScoreDesc_sorted _ _) n

/-- Counterexample to claim C5: on an HTTP 429 response the comment
fetch performs exactly one request and no sleep — there is no retry
and no 2-second backoff. -/
theorem claim_C5_counterexample :
    (fetch_post_comments_via_scrapingfish ⟨429, none⟩ 5).requestsMade = 1
  ∧ (fetch_post_comments_via_scrapingfish ⟨429, none⟩ 5).sleepsSeconds = []
  ∧ (fetch_post_comments_via_scrapingfish ⟨429, none⟩ 5).requestsMade ≠ 2 := by
  decide

/-- Claim C5 as amended: a 429 response (like every error status)
makes the comment fetch give up immediately — one request, no sleep,
empty result. -/
theorem claim_C5 (resp : HttpResponse) (num_comments : Nat) (h : 400 ≤ resp.status) :
    fetch_post_comments_via_scrapingfish resp num_comments = ⟨[], 1, []⟩ := by
  unfold fetch_post_comments_via_scrapingfish
  rw [if_pos h]

/-- Witness for the amended C5 at a concrete 429 response. -/
theorem claim_C5_witness :
    fetch_post_comments_via_scrapingfish ⟨429, none⟩ 5 = ⟨[], 1, []⟩ :=
  claim_C5 ⟨429, none⟩ 5 (by norm_num)

/-- Counterexample to claim C6: one search hit with score 42 whose
comment fetch yields nothing is carried through with its own score;
no RedditResult with score 0 is synthesized. -/
theorem claim_C6_counterexample :
    get_top_posts_with_comments "claude ai" none [samplePost] (fun _ => Except.ok [])
      = [⟨"claude ai", none, samplePost, []⟩]
  ∧ ¬ (∃ r ∈ get_top_posts_with_comments "claude ai" none [samplePost]
        (fun _ => Except.ok []), r.post.score = 0) := by
  decide

/-- Claim C6 as amended: when the search produced at least one post
but no post yields usable comments (empty fetch or exception), every
post is still emitted as a RedditResult with an empty comment list and
the post record kept verbatim (its search score included, not reset to
0), so the keyword is never silently dropped. -/
theorem claim_C6 (kw : String) (sub : Option String) (posts : List RedditPost)
    (commentsOf : RedditPost → Except Unit (List RedditComment))
    (hne : posts ≠ [])
    (hcomm : ∀ p, commentsOf p = Except.ok [] ∨ commentsOf p = Except.error ()) :
    get_top_posts_with_comments kw sub posts commentsOf
        = posts.map (fun p => ⟨kw, sub, p, []⟩)
    ∧ get_top_posts_with_comments kw sub posts commentsOf ≠ [] := by
  have hmain : get_top_posts_with_comments kw sub posts commentsOf
      = posts.map (fun p => ⟨kw, sub, p, []⟩) := by
    unfold get_top_posts_with_comments
    rw [if_neg hne]
    apply List.map_congr_left
    intro p _
    rcases hcomm p with h | h <;> rw [h]
  refine ⟨hmain, ?_⟩
  rw [hmain]
  simpa using hne

/-- Witness for the amended C6 at one score-42 post whose comment
fetch returns the empty list. -/
theorem claim_C6_witness :
    get_top_posts_with_comments "claude ai" none [samplePost] (fun _ => Except.ok [])
        = [⟨"claude ai", none, samplePost, []⟩]
    ∧ get_top_posts_with_comments "claude ai" none [samplePost]
        (fun _ => Except.ok []) ≠ [] :=
  claim_C6 "claude ai" none [samplePost] (fun _ => Except.ok []) (by simp)
    (fun _ => Or.inl rfl)

/-- The scrape loop with an arbitrary accumulator. -/
theorem scrape_foldl (fetch : SearchResult → FetchOutcome) :
    ∀ (items : List SearchResult) (acc : List ScrapedPage),
      items.foldl (fun acc r =>
        match fetch r with
        | .response s doc => if s = 200 then acc ++ [mkScrapedPage r doc] else acc
        | .failure => acc) acc
      = acc ++ items.filterMap (pageOf fetch) := by
  intro items
  induction items with
  | nil => intro acc; simp
  | cons r rs ih =>
      intro acc
      simp only [List.foldl_cons, List.filterMap_cons]
      cases hf : fetch r with
      | response s doc =>
          by_cases hs : s = 200
          · simp [hf, hs, pageOf, ih]
          · simp [hf, hs, pageOf, ih]
      | failure => simp [hf, pageOf, ih]

/-- Claim C7: the scrape stage emits exactly the successfully scraped
items (status 200, no exception) in input order; an item whose request
fails is dropped and the remaining items are still processed. -/
theorem claim_C7 :
    (∀ (fetch : SearchResult → FetchOutcome) (items : List SearchResult),
        scrape_and_save_markdown fetch items = items.filterMap (pageOf fetch))
  ∧ (∀ (fetch : SearchResult → FetchOutcome) (r : SearchResult) (rs : List SearchResult)
        (doc : NodeList), fetch r = .response 500 doc →
        scrape_and_save_markdown fetch (r :: rs) = scrape_and_save_markdown fetch rs) := by
  have hmain : ∀ (fetch : SearchResult → FetchOutcome) (items : List SearchResult),
      scrape_and_save_markdown fetch items = items.filterMap (pageOf fetch) := by
    intro fetch items
    unfold scrape_and_save_markdown
    simpa using scrape_foldl fetch items []
  refine ⟨hmain, ?_⟩
  intro fetch r rs doc h500
  rw [hmain, hmain, List.filterMap_cons]
  simp [pageOf, h500]

/-- Witness for C7: an item answered with HTTP 500 contributes
nothing to the scrape output. -/
theorem claim_C7_witness :
    scrape_and_save_markdown fetch500 [sampleResult 1]
      = scrape_and_save_markdown fetch500 [] :=
  claim_C7.2 fetch500 (sampleResult 1) [] NodeList.nil rfl

/-- Claim C10: every post returned by the Reddit search stems from a
child with a non-empty permalink (children without one are skipped
before sorting and truncation), and the output can be shorter than the
requested count even when the listing had at least that many children. -/
theorem claim_C10 :
    (∀ (children : List RawChild) (n : Nat) (p : RedditPost),
        p ∈ search_reddit_via_scrapingfish (some children) n →
          ∃ c, c ∈ children ∧ c.permalink ≠ "" ∧ p = mkPostRecord c)
  ∧ (∃ children : List RawChild, 2 ≤ children.length
      ∧ (search_reddit_via_scrapingfish (some children) 2).length < 2) := by
  constructor
  · intro children n p hp
    simp only [search_reddit_via_scrapingfish] at hp
    have h1 : p ∈ sortByScoreDesc (fun p => p.score) (children.filterMap mkPost) :=
      List.mem_of_mem_take hp
    have h2 : p ∈ children.filterMap mkPost :=
      (List.perm_insertionSort _ _).subset h1
    obtain ⟨c, hc, hmk⟩ := List.mem_filterMap.mp h2
    unfold mkPost at hmk
    by_cases hperm : c.permalink ≠ ""
    · rw [if_pos hperm] at hmk
      exact ⟨c, hc, hperm, (Option.some.inj hmk).symm⟩
    · rw [if_neg hperm] at hmk
      exact absurd hmk (by simp)
  · exact ⟨[⟨"a", "", 0, 0, "s", ""⟩, ⟨"b", "", 0, 0, "s", ""⟩], by decide, by decide⟩

/-- Witness for C10 at a one-child listing with a real permalink. -/
theorem claim_C10_witness :
    ∃ c, c ∈ [sampleChild] ∧ c.permalink ≠ ""
      ∧ mkPostRecord sampleChild = mkPostRecord c :=
  claim_C10.1 [sampleChild] 1 (mkPostRecord sampleChild) (by decide)

/-! ## Lemmas on the blank-line collapse -/

theorem matchTail_length : ∀ (cs r : List Char), matchTail cs = some r → r.length < cs.length := by
  intro cs
  induction cs with
  | nil => intro r h; simp [matchTail] at h
  | cons c cs ih =>
      intro r h
      by_cases hc : c = '\n'
      · subst hc
        cases hm : matchTail cs with
        | some r2 =>
            simp [matchTail, hm] at h
            subst h
            have := ih r2 hm
            simp only [List.length_cons]
            omega
        | none =>
            simp [matchTail, hm] at h
            subst h
            simp
      · by_cases hw : pyWs c
        · simp [matchTail, hc, hw] at h
          have := ih r h
          simp only [List.length_cons]
          omega
        · simp [matchTail, hc, hw] at h

theorem collapseF_congr : ∀ (f g : Nat) (l : List Char), l.length ≤ f → l.length ≤ g →
    collapseF f l = collapseF g l := by
  intro f
  induction f with
  | zero =>
      intro g l hf _
      have hl : l = [] := List.length_eq_zero.mp (Nat.le_zero.mp hf)
      subst hl
      cases g <;> simp [collapseF]
  | succ f ih =>
      intro g l hf hg
      cases l with
      | nil => cases g <;> simp [collapseF]
      | cons c cs =>
          cases g with
          | zero => simp at hg
          | succ g =>
              simp only [collapseF]
              simp only [List.length_cons] at hf hg
              by_cases hc : c = '\n'
              · rw [if_pos hc, if_pos hc]
                cases hm : matchTail cs with
                | some r =>
                    have hr := matchTail_length cs r hm
                    have h1 : collapseF f r = collapseF g r := ih g r (by omega) (by omega)
                    simp [h1]
                | none =>
                    have h1 : collapseF f cs = collapseF g cs := ih g cs (by omega) (by omega)
                    simp [h1]
              · rw [if_neg hc, if_neg hc]
                have h1 : collapseF f cs = collapseF g cs := ih g cs (by omega) (by omega)
                rw [h1]

theorem collapse_nil : collapse [] = [] := rfl

theorem collapse_cons_of_ne (c : Char) (cs : List Char) (h : c ≠ '\n') :
    collapse (c :: cs) = c :: collapse cs := by
  simp only [collapse, List.length_cons, collapseF, if_neg h]

theorem collapse_cons_nl_none (cs : List Char) (h : matchTail cs = none) :
    collapse ('\n' :: cs) = '\n' :: collapse cs := by
  simp [collapse, List.length_cons, collapseF, h]

theorem collapse_cons_nl_some (cs r : List Char) (h : matchTail cs = some r) :
    collapse ('\n' :: cs) = '\n' :: '\n' :: collapse r := by
  have hlt := matchTail_length cs r h
  have hcong : collapseF cs.length r = collapseF r.length r :=
    collapseF_congr cs.length r.length r (by omega) (le_refl _)
  simp [collapse, List.length_cons, collapseF, h, hcong]

theorem collapse_length_le : ∀ (l : List Char), (collapse l).length ≤ l.length
  | [] => by simp [collapse_nil]
  | c :: cs => by
      by_cases hc : c = '\n'
      · subst hc
        cases hm : matchTail cs with
        | none =>
            rw [collapse_cons_nl_none cs hm]
            have := collapse_length_le cs
            simp only [List.length_cons]
            omega
        | some r =>
            rw [collapse_cons_nl_some cs r hm]
            have h2 := matchTail_length cs r hm
            have h1 := collapse_length_le r
            simp only [List.length_cons]
            omega
      · rw [collapse_cons_of_ne c cs hc]
        have := collapse_length_le cs
        simp only [List.length_cons]
        omega
termination_by l => l.length
decreasing_by
  · simp only [List.length_cons]; omega
  · have := matchTail_length cs r hm
    simp only [List.length_cons]
    omega
  · simp only [List.length_cons]; omega

theorem takeWhile_append_all (sp x : List Char) (h : ∀ c ∈ sp, pyWs c = true) :
    (sp ++ x).takeWhile pyWs = sp ++ x.takeWhile pyWs := by
  induction sp with
  | nil => simp
  | cons c cs ih =>
      have hc : pyWs c = true := h c (by simp)
      simp only [List.cons_append, List.takeWhile_cons, hc, if_pos]
      rw [ih (fun d hd => h d (by simp [hd]))]

theorem matchTail_none_iff : ∀ (l : List Char), matchTail l = none ↔ '\n' ∉ l.takeWhile pyWs := by
  intro l
  induction l with
  | nil => simp [matchTail]
  | cons c cs ih =>
      by_cases hc : c = '\n'
      · subst hc
        constructor
        · intro h
          cases hm : matchTail cs <;> simp [matchTail, hm] at h
        · intro h
          exfalso
          exact h (by simp [List.takeWhile_cons, show pyWs '\n' = true from rfl])
      · by_cases hw : pyWs c
        · have hne : ('\n' : Char) ≠ c := fun he => hc he.symm
          simp [matchTail, hc, hw, List.takeWhile_cons, ih, hne]
        · simp [matchTail, hc, hw, List.takeWhile_cons]

theorem matchTail_some_no_nl : ∀ (cs r : List Char), matchTail cs = some r →
    '\n' ∉ r.takeWhile pyWs := by
  intro cs
  induction cs with
  | nil => intro r h; simp [matchTail] at h
  | cons c cs ih =>
      intro r h
      by_cases hc : c = '\n'
      · subst hc
        cases hm : matchTail cs with
        | some r2 =>
            simp [matchTail, hm] at h
            subst h
            exact ih r2 hm
        | none =>
            simp [matchTail, hm] at h
            subst h
            exact (matchTail_none_iff cs).mp hm
      · by_cases hw : pyWs c
        · simp [matchTail, hc, hw] at h
          exact ih r h
        · simp [matchTail, hc, hw] at h

theorem collapse_append_no_nl (sp x : List Char) (h : ∀ c ∈ sp, c ≠ '\n') :
    collapse (sp ++ x) = sp ++ collapse x := by
  induction sp with
  | nil => simp
  | cons c cs ih =>
      have hc := h c (by simp)
      simp only [List.cons_append]
      rw [collapse_cons_of_ne _ _ hc, ih (fun d hd => h d (by simp [hd]))]

theorem dropWhile_head_not_pyWs : ∀ (l : List Char) (c : Char) (cs : List Char),
    l.dropWhile pyWs = c :: cs → pyWs c = false := by
  intro l
  induction l with
  | nil => intro c cs h; simp at h
  | cons a l' ih =>
      intro c cs h
      by_cases ha : pyWs a
      · rw [List.dropWhile_cons, if_pos ha] at h
        exact ih c cs h
      · rw [List.dropWhile_cons, if_neg ha] at h
        cases h
        simpa using ha

theorem takeWhile_collapse (l : List Char) (h : '\n' ∉ l.takeWhile pyWs) :
    (collapse l).takeWhile pyWs = l.takeWhile pyWs := by
  have hdecomp : l.takeWhile pyWs ++ l.dropWhile pyWs = l :=
    List.takeWhile_append_dropWhile pyWs l
  have hsp_ws : ∀ c ∈ l.takeWhile pyWs, pyWs c = true :=
    fun c hc => List.mem_takeWhile_imp hc
  have hsp_nl : ∀ c ∈ l.takeWhile pyWs, c ≠ '\n' :=
    fun c hc hne => h (hne ▸ hc)
  have hx : (collapse (l.dropWhile pyWs)).takeWhile pyWs = [] := by
    cases hx2 : l.dropWhile pyWs with
    | nil => simp [collapse_nil]
    | cons d ds =>
        have hd : pyWs d = false := dropWhile_head_not_pyWs l d ds hx2
        have hd' : d ≠ '\n' := by
          intro he
          rw [he] at hd
          simp [pyWs] at hd
        rw [collapse_cons_of_ne d ds hd']
        simp [List.takeWhile_cons, hd]
  calc (collapse l).takeWhile pyWs
      = (collapse (l.takeWhile pyWs ++ l.dropWhile pyWs)).takeWhile pyWs := by rw [hdecomp]
    _ = (l.takeWhile pyWs ++ collapse (l.dropWhile pyWs)).takeWhile pyWs := by
        rw [collapse_append_no_nl _ _ hsp_nl]
    _ = l.takeWhile pyWs ++ (collapse (l.dropWhile pyWs)).takeWhile pyWs :=
        takeWhile_append_all _ _ hsp_ws
    _ = l.takeWhile pyWs := by rw [hx, List.append_nil]

theorem matchTail_collapse_none (l : List Char) (h : '\n' ∉ l.takeWhile pyWs) :
    matchTail (collapse l) = none :=
  (matchTail_none_iff _).mpr (by rw [takeWhile_collapse l h]; exact h)

theorem collapse_idem : ∀ (l : List Char), collapse (collapse l) = collapse l
  | [] => by simp [collapse_nil]
  | c :: cs => by
      by_cases hc : c = '\n'
      · subst hc
        cases hm : matchTail cs with
        | none =>
            rw [collapse_cons_nl_none cs hm]
            have h1 : matchTail (collapse cs) = none :=
              matchTail_collapse_none cs ((matchTail_none_iff cs).mp hm)
            rw [collapse_cons_nl_none _ h1, collapse_idem cs]
        | some r =>
            rw [collapse_cons_nl_some cs r hm]
            have hrlt := matchTail_length cs r hm
            have hrle := collapse_length_le r
            have h1 : matchTail (collapse r) = none :=
              matchTail_collapse_none r (matchTail_some_no_nl cs r hm)
            have h2 : matchTail ('\n' :: collapse r) = some (collapse r) := by
              simp [matchTail, h1]
            rw [collapse_cons_nl_some _ _ h2, collapse_idem r]
      · rw [collapse_cons_of_ne c cs hc, collapse_cons_of_ne c _ hc, collapse_idem cs]
termination_by l => l.length
decreasing_by
  · simp only [List.length_cons]; omega
  · simp only [List.length_cons]; omega
  · simp only [List.length_cons]; omega

theorem collapse_dropWhile_fix : ∀ (l : List Char), collapse l = l →
    collapse (l.dropWhile pyWs) = l.dropWhile pyWs
  | [] => by simp [collapse_nil]
  | c :: cs => by
      intro hfix
      by_cases hw : pyWs c
      · rw [List.dropWhile_cons, if_pos hw]
        by_cases hc : c = '\n'
        · subst hc
          cases hm : matchTail cs with
          | none =>
              have h1 : collapse cs = cs := by
                rw [collapse_cons_nl_none cs hm] at hfix
                simpa using hfix
              exact collapse_dropWhile_fix cs h1
          | some r =>
              rw [collapse_cons_nl_some cs r hm] at hfix
              have hrlt := matchTail_length cs r hm
              have hrle := collapse_length_le r
              have hcs : cs = '\n' :: collapse r := by
                have h2 : '\n' :: collapse r = cs := by simpa using hfix
                exact h2.symm
              rw [hcs, List.dropWhile_cons, if_pos (show pyWs '\n' = true from rfl)]
              exact collapse_dropWhile_fix (collapse r) (collapse_idem r)
        · have h1 : collapse cs = cs := by
            rw [collapse_cons_of_ne c cs hc] at hfix
            simpa using hfix
          exact collapse_dropWhile_fix cs h1
      · rw [List.dropWhile_cons, if_neg hw]
        exact hfix
termination_by l => l.length
decreasing_by
  · simp only [List.length_cons]; omega
  · simp only [List.length_cons]; omega
  · simp only [List.length_cons]; omega

theorem dropTrailingWs_prefix : ∀ (l : List Char), ∃ t, dropTrailingWs l ++ t = l := by
  intro l
  induction l with
  | nil => exact ⟨[], rfl⟩
  | cons c cs ih =>
      obtain ⟨t, ht⟩ := ih
      by_cases h : dropTrailingWs cs = []
      · by_cases hw : pyWs c
        · exact ⟨c :: cs, by simp [dropTrailingWs, h, hw]⟩
        · exact ⟨cs, by simp [dropTrailingWs, h, hw]⟩
      · refine ⟨t, ?_⟩
        simp [dropTrailingWs, h, ht]

theorem mem_takeWhile_append (p : Char → Bool) : ∀ (l t : List Char) (c : Char),
    c ∈ l.takeWhile p → c ∈ (l ++ t).takeWhile p := by
  intro l t c
  induction l with
  | nil => simp
  | cons a l' ih =>
      by_cases ha : p a
      · simp only [List.takeWhile_cons, ha, if_pos, List.cons_append, List.mem_cons]
        rintro (h | h)
        · exact Or.inl h
        · exact Or.inr (ih h)
      · simp [List.takeWhile_cons, ha]

theorem dropTrailingWs_idem : ∀ (l : List Char),
    dropTrailingWs (dropTrailingWs l) = dropTrailingWs l := by
  intro l
  induction l with
  | nil => rfl
  | cons c cs ih =>
      by_cases h : dropTrailingWs cs = []
      · by_cases hw : pyWs c
        · simp [dropTrailingWs, h, hw]
        · simp [dropTrailingWs, h, hw]
      · simp [dropTrailingWs, h, ih]

theorem collapse_dropTrailing_fix : ∀ (l : List Char), collapse l = l →
    collapse (dropTrailingWs l) = dropTrailingWs l
  | [] => by intro _; rfl
  | c :: cs => by
      intro hfix
      by_cases hc : c = '\n'
      · subst hc
        cases hm : matchTail cs with
        | none =>
            have h1 : collapse cs = cs := by
              rw [collapse_cons_nl_none cs hm] at hfix
              simpa using hfix
            have ihcs := collapse_dropTrailing_fix cs h1
            by_cases hD : dropTrailingWs cs = []
            · simp [dropTrailingWs, hD, show pyWs '\n' = true from rfl, collapse_nil]
            · rw [show dropTrailingWs ('\n' :: cs) = '\n' :: dropTrailingWs cs from by
                simp [dropTrailingWs, hD]]
              have hnone : matchTail (dropTrailingWs cs) = none := by
                rw [matchTail_none_iff]
                intro hmem
                obtain ⟨t, ht⟩ := dropTrailingWs_prefix cs
                have hmem2 : '\n' ∈ cs.takeWhile pyWs := by
                  rw [← ht]
                  exact mem_takeWhile_append pyWs _ t _ hmem
                exact (matchTail_none_iff cs).mp hm hmem2
              rw [collapse_cons_nl_none _ hnone, ihcs]
        | some r =>
            rw [collapse_cons_nl_some cs r hm] at hfix
            have hrlt := matchTail_length cs r hm
            have hrle := collapse_length_le r
            have hcs : cs = '\n' :: collapse r := by
              have h2 : '\n' :: collapse r = cs := by simpa using hfix
              exact h2.symm
            have ihu := collapse_dropTrailing_fix (collapse r) (collapse_idem r)
            by_cases hE : dropTrailingWs (collapse r) = []
            · have hD : dropTrailingWs cs = [] := by
                rw [hcs]
                simp [dropTrailingWs, hE, show pyWs '\n' = true from rfl]
              simp [dropTrailingWs, hD, show pyWs '\n' = true from rfl, collapse_nil]
            · have hD : dropTrailingWs cs = '\n' :: dropTrailingWs (collapse r) := by
                rw [hcs]
                simp [dropTrailingWs, hE]
              have hDne : dropTrailingWs cs ≠ [] := by
                rw [hD]
                simp
              rw [show dropTrailingWs ('\n' :: cs) = '\n' :: dropTrailingWs cs from by
                simp [dropTrailingWs, hDne]]
              rw [hD]
              have hnoE : matchTail (dropTrailingWs (collapse r)) = none := by
                rw [matchTail_none_iff]
                intro hmem
                obtain ⟨t, ht⟩ := dropTrailingWs_prefix (collapse r)
                have hmem2 : '\n' ∈ (collapse r).takeWhile pyWs := by
                  rw [← ht]
                  exact mem_takeWhile_append pyWs _ t _ hmem
                have hno := matchTail_some_no_nl cs r hm
                rw [takeWhile_collapse r hno] at hmem2
                exact hno hmem2
              have hsome : matchTail ('\n' :: dropTrailingWs (collapse r))
                  = some (dropTrailingWs (collapse r)) := by
                simp [matchTail, hnoE]
              rw [collapse_cons_nl_some _ _ hsome, ihu]
      · have h1 : collapse cs = cs := by
          rw [collapse_cons_of_ne c cs hc] at hfix
          simpa using hfix
        have ihcs := collapse_dropTrailing_fix cs h1
        by_cases hD : dropTrailingWs cs = []
        · by_cases hw : pyWs c
          · simp [dropTrailingWs, hD, hw, collapse_nil]
          · rw [show dropTrailingWs (c :: cs) = [c] from by simp [dropTrailingWs, hD, hw]]
            rw [collapse_cons_of_ne c [] hc, collapse_nil]
        · rw [show dropTrailingWs (c :: cs) = c :: dropTrailingWs cs from by
            simp [dropTrailingWs, hD]]
          rw [collapse_cons_of_ne c _ hc, ihcs]
termination_by l => l.length
decreasing_by
  · simp only [List.length_cons]; omega
  · simp only [List.length_cons]; omega
  · simp only [List.length_cons]; omega

theorem dropWhile_dropTrailing (l : List Char) :
    (dropTrailingWs (l.dropWhile pyWs)).dropWhile pyWs = dropTrailingWs (l.dropWhile pyWs) := by
  cases hE : dropTrailingWs (l.dropWhile pyWs) with
  | nil => rfl
  | cons c cs =>
      have hc : pyWs c = false := by
        obtain ⟨t, ht⟩ := dropTrailingWs_prefix (l.dropWhile pyWs)
        rw [hE] at ht
        exact dropWhile_head_not_pyWs l c (cs ++ t) (by rw [← ht]; simp)
      simp [List.dropWhile_cons, hc]

theorem pyStrip_idem (l : List Char) : pyStrip (pyStrip l) = pyStrip l := by
  unfold pyStrip
  rw [dropWhile_dropTrailing l, dropTrailingWs_idem]

theorem collapse_pyStrip_fix (l : List Char) (h : collapse l = l) :
    collapse (pyStrip l) = pyStrip l := by
  unfold pyStrip
  exact collapse_dropTrailing_fix (l.dropWhile pyWs) (collapse_dropWhile_fix l h)

theorem normalizeText_eq (t : List Char) : normalizeText t = pyStrip (collapse t) := by
  simp [normalizeText, convert_html_to_markdown, applyPasses, olPassList, ulPassList,
    emphPassList, aPassList, headingPassList, olPass, ulPass, emphPass, aPass, headingPass,
    getTextList, getText]

/-- Claim C9: the markdown normalizer is idempotent on tag-free plain
text: its output, fed back in as a plain-text document, is returned
unchanged, so text that is already in normalized form stays as it is. -/
theorem claim_C9 : ∀ t : List Char, normalizeText (normalizeText t) = normalizeText t := by
  intro t
  rw [normalizeText_eq, normalizeText_eq]
  rw [collapse_pyStrip_fix (collapse t) (collapse_idem t)]
  exact pyStrip_idem (collapse t)

/-- Counterexample to claim C8: on the parse tree of
`<h2>Title</h2><ul><li>A</li><li>B</li></ul>` the normalizer output is
not the spec string (the list items are separated by a single newline,
not a blank line, and the trailing newline is stripped). -/
theorem claim_C8_counterexample :
    convert_html_to_markdown exampleDoc ≠ ("## Title\n\n- A\n\n- B\n").toList := by
  decide

/-- Claim C8 as amended: on that input the normalizer output equals
`## Title\n\n- A\n- B` — consecutive list items are separated by one
newline and leading or trailing whitespace is stripped. -/
theorem claim_C8 :
    convert_html_to_markdown exampleDoc = ("## Title\n\n- A\n- B").toList := by
  decide
